import Mathlib

/-!
Verification development for the account-statement reconciler
(`src/proofapp.py`).  The core of the program is embedded shallowly:

* machine floats become exact rationals (`ℚ`); Python `round(x, n)` becomes
  round-half-even at `n` decimal places (`rheInt`);
* pandas `NaN` in an optional column becomes `Option`;
* a DataFrame becomes a `List Row`, row order standing for positional index;
* the Streamlit column-mismatch branch becomes an `Except` error carrying
  the column names printed by the error message.
-/

set_option maxRecDepth 8000

namespace ProofApp

/-- Rounding half to even of a rational to an integer, the tie rule used by
Python `round` and numpy/pandas `round` (modelled over exact rationals).
Implemented on the numerator and denominator directly: `f` is the floor of
`q`, `rem / q.den` its fractional part, and the three branches compare the
fractional part with `1/2`. -/
def rheInt (q : ℚ) : ℤ :=
  let d : ℤ := (q.den : ℤ)
  let f : ℤ := Int.fdiv q.num d
  let rem : ℤ := q.num - f * d
  if 2 * rem < d then f
  else if d < 2 * rem then f + 1
  else if f % 2 = 0 then f else f + 1

/-- Decimal rendering of `k / 100`, matching what Python `str`/f-string
printing produces for a float that is exact at two decimal places
(trailing zero of the fraction dropped, but at least one fractional digit:
`100000 ↦ "1000.0"`, `1250 ↦ "12.5"`, `1205 ↦ "12.05"`, `-310 ↦ "-3.1"`). -/
def pyFloat2Repr (k : ℤ) : String :=
  let sign := if k < 0 then "-" else ""
  let m := k.natAbs
  let ip := m / 100
  let fr := m % 100
  let frs :=
    if fr = 0 then "0"
    else if fr % 10 = 0 then toString (fr / 10)
    else if fr < 10 then "0" ++ toString fr
    else toString fr
  sign ++ toString ip ++ "." ++ frs

/-- Embedding of the Python expression `f"{round(q, 2)}"`. -/
def pyRound2Str (q : ℚ) : String :=
  pyFloat2Repr (rheInt (q * 100))

/-- ASCII decimal digit, the characters matched by the regex `\d` on the
(ASCII) statement descriptions. -/
def isDigitChar (c : Char) : Bool :=
  decide ('0' ≤ c) && decide (c ≤ '9')

/-- Lexicographic comparison of character lists by code point, the order
Python `sorted` uses on strings. -/
def lexLe : List Char → List Char → Bool
  | [], _ => true
  | _ :: _, [] => false
  | a :: as, b :: bs =>
    if a < b then true
    else if b < a then false
    else lexLe as bs

/-- Lexicographic code-point order on strings (Python string comparison). -/
def strLe (a b : String) : Bool :=
  lexLe a.data b.data

instance : IsTotal String fun a b => strLe a b = true :=
  ⟨fun a b => by
    suffices h : ∀ as bs : List Char, lexLe as bs = true ∨ lexLe bs as = true from h a.data b.data
    intro as
    induction as with
    | nil => intro bs; left; rfl
    | cons x xs ih =>
      intro bs
      cases bs with
      | nil => right; rfl
      | cons y ys =>
        by_cases hxy : x < y
        · left; simp [lexLe, hxy]
        · by_cases hyx : y < x
          · right; simp [lexLe, hyx, hxy]
          · rcases ih ys with h | h
            · left; simpa [lexLe, hxy, hyx] using h
            · right; simpa [lexLe, hxy, hyx] using h⟩

instance : IsTrans String fun a b => strLe a b = true :=
  ⟨fun a b c hab hbc => by
    suffices h : ∀ as bs cs : List Char,
        lexLe as bs = true → lexLe bs cs = true → lexLe as cs = true from
      h a.data b.data c.data hab hbc
    intro as
    induction as with
    | nil => intro bs cs _ _; rfl
    | cons x xs ih =>
      intro bs cs h1 h2
      cases bs with
      | nil => simp [lexLe] at h1
      | cons y ys =>
        cases cs with
        | nil => simp [lexLe] at h2
        | cons z zs =>
          by_cases hxy : x < y
          · by_cases hyz : y < z
            · simp [lexLe, lt_trans hxy hyz]
            · by_cases hzy : z < y
              · simp [lexLe, hyz, hzy] at h2
              · have hyz' : y = z := le_antisymm (not_lt.mp hzy) (not_lt.mp hyz)
                simp [lexLe, hyz' ▸ hxy]
          · by_cases hyx : y < x
            · simp [lexLe, hxy, hyx] at h1
            · have hxy' : x = y := le_antisymm (not_lt.mp hyx) (not_lt.mp hxy)
              subst hxy'
              by_cases hyz : x < z
              · simp [lexLe, hyz]
              · by_cases hzy : z < x
                · simp [lexLe, hyz, hzy] at h2
                · simp only [lexLe, if_neg hxy, if_neg hyx] at h1
                  simp only [lexLe, if_neg hyz, if_neg hzy] at h2 ⊢
                  exact ih ys zs h1 h2⟩

instance : IsAntisymm String fun a b => strLe a b = true :=
  ⟨fun a b hab hba => by
    suffices h : ∀ as bs : List Char,
        lexLe as bs = true → lexLe bs as = true → as = bs by
      cases a; cases b
      exact congrArg String.mk (h _ _ hab hba)
    intro as
    induction as with
    | nil => intro bs _ hba; cases bs with
      | nil => rfl
      | cons y ys => simp [lexLe] at hba
    | cons x xs ih =>
      intro bs h1 h2
      cases bs with
      | nil => simp [lexLe] at h1
      | cons y ys =>
        by_cases hxy : x < y
        · simp [lexLe, hxy, lt_asymm hxy] at h2
        · by_cases hyx : y < x
          · simp [lexLe, hxy, hyx] at h1
          · have hxy' : x = y := le_antisymm (not_lt.mp hyx) (not_lt.mp hxy)
            subst hxy'
            simp only [lexLe, if_neg hxy, if_neg hyx] at h1 h2
            exact congrArg (x :: ·) (ih ys h1 h2)⟩

/-- Scanner behind `findRun8`: walks the characters left to right keeping
the digit run currently being read (reversed) in `cur`; the first time a
maximal digit run of length at least 8 is completed, that run is the
answer. -/
def findRun8Go : List Char → List Char → Option (List Char)
  | [], cur => if 8 ≤ cur.length then some cur.reverse else none
  | c :: cs, cur =>
    if isDigitChar c then findRun8Go cs (c :: cur)
    else if 8 ≤ cur.length then some cur.reverse else findRun8Go cs []

/-- Leftmost match of the regex `\d{8,}` on a character list: the first
maximal run of consecutive decimal digits whose length is at least 8,
taken greedily (the whole run), as `re.search` does. -/
def findRun8 (l : List Char) : Option (List Char) :=
  findRun8Go l []

/-- Embedding of `extract_numeric_key` (src/proofapp.py lines 47-50):
`re.search` for `\d{8,}` on the description, returning the matched text, or
`none` when the description is missing or there is no match. -/
def extract_numeric_key (description : Option String) : Option String :=
  match description with
  | none => none
  | some s => (findRun8 s.data).map String.mk

/-- Characters matched by the regex class `[A-Z0-9]`. -/
def isKeyChar (c : Char) : Bool :=
  (decide ('A' ≤ c) && decide (c ≤ 'Z')) || (decide ('0' ≤ c) && decide (c ≤ '9'))

/-- Scanner behind `alnumRuns`, accumulating the run currently being read
(reversed) in `cur` and emitting it when it ends. -/
def alnumRunsGo : List Char → List Char → List (List Char)
  | [], cur => if cur = [] then [] else [cur.reverse]
  | c :: cs, cur =>
    if isKeyChar c then alnumRunsGo cs (c :: cur)
    else if cur = [] then alnumRunsGo cs []
    else cur.reverse :: alnumRunsGo cs []

/-- Maximal runs of `[A-Z0-9]` characters, as produced by
`re.findall(r'[A-Z0-9]+', s)`. -/
def alnumRuns (l : List Char) : List (List Char) :=
  alnumRunsGo l []

/-- The stopword set of `extract_text_key` (src/proofapp.py line 55). -/
def stopwords : List String :=
  ["THE", "AND", "OR", "A", "AN", "BUT", "OF", "TO", "FOR", "WITH", "ON",
   "FROM", "REVERSAL", "REF", "TRF", "PAYMENT", "PAID"]

/-- Embedding of `extract_text_key` (src/proofapp.py lines 52-58):
uppercase, tokenize on `[A-Z0-9]+`, drop stopwords and tokens of length ≤ 2,
`sorted(list(set(...)))`, join the first three. -/
def extract_text_key (description : Option String) : String :=
  match description with
  | none => ""
  | some s =>
    let words := (alnumRuns (s.data.map Char.toUpper)).map String.mk
    let keywords := words.filter fun w => !(stopwords.contains w) && 2 < w.length
    let uniq := (keywords.dedup).insertionSort fun a b => strLe a b = true
    String.join (uniq.take 3)

/-- Embedding of `extract_match_key` (src/proofapp.py lines 60-66), taking
the row's already-computed `Match_Key_Ref`, `Match_Key_Text` and
`Net_Value`. -/
def extract_match_key (ref : Option String) (text : String) (net : ℚ) : String :=
  match ref with
  | some k => k
  | none =>
    if text = "" then "NO_KEY_VALUE_" ++ pyRound2Str net
    else text ++ "_" ++ pyRound2Str |net|

/-- One statement line.  `description`, `deposit` and `withdrawal` are
optional (pandas `NaN` becomes `none`); the remaining columns are carried
as opaque payload that the reconciliation core never inspects. -/
structure Row where
  date : String
  reference : String
  description : Option String
  value : ℚ
  deposit : Option ℚ
  withdrawal : Option ℚ
  balance : ℚ
deriving DecidableEq

/-- Net value of a row (src/proofapp.py lines 110-112): deposit and
withdrawal zero-filled, then subtracted. -/
def net_value (r : Row) : ℚ :=
  r.deposit.getD 0 - r.withdrawal.getD 0

/-- The `fillna(0)` writes of src/proofapp.py lines 110-111 applied to one
row: absent deposit and withdrawal become explicit zeros. -/
def fillRow (r : Row) : Row :=
  { r with deposit := some (r.deposit.getD 0),
           withdrawal := some (r.withdrawal.getD 0) }

/-- Derived grouping key of a row (src/proofapp.py line 114): the numeric
key when present, otherwise text key and net value combined. -/
def match_key (r : Row) : String :=
  extract_match_key (extract_numeric_key r.description)
    (extract_text_key r.description) (net_value r)

/-- Balance row test (src/proofapp.py line 100): deposit and withdrawal
both absent. -/
def isBalanceRow (r : Row) : Bool :=
  r.deposit.isNone && r.withdrawal.isNone

/-- Result of the statement segmenter: opening-balance rows, transaction
body, closing-balance rows (each boundary either empty or a single row). -/
structure Segmented where
  ob : List Row
  body : List Row
  cb : List Row
deriving DecidableEq

/-- Embedding of the segmenter (src/proofapp.py lines 100-106): if no row
has both deposit and withdrawal absent, the whole statement is the body;
otherwise the first such row is the opening balance, the last is the
closing balance, and the body is `df.iloc[idx_ob + 1 : idx_cb]`. -/
def segment (rows : List Row) : Segmented :=
  match rows.findIdx? isBalanceRow with
  | none => ⟨[], rows, []⟩
  | some i =>
    let j := rows.length - 1 - rows.reverse.findIdx isBalanceRow
    ⟨(rows.drop i).take 1, (rows.take j).drop (i + 1), (rows.drop j).take 1⟩

/-- Sum of `Net_Value` over the rows of `trans` carrying match key `k`
(the groupby-sum of src/proofapp.py line 116 at key `k`). -/
def groupNet (trans : List Row) (k : String) : ℚ :=
  ((trans.filter fun r => match_key r == k).map net_value).sum

/-- Test `round(·, 4) == 0` applied to a group sum (src/proofapp.py
line 117). -/
def round4Zero (q : ℚ) : Bool :=
  rheInt (q * 10000) == 0

/-- Rows of matched groups (src/proofapp.py line 119): the rows whose
key's group net sum rounds to zero at 4 decimal places. -/
def df_matched (trans : List Row) : List Row :=
  trans.filter fun r => round4Zero (groupNet trans (match_key r))

/-- Rows of unmatched groups (src/proofapp.py line 120). -/
def df_unmatched (trans : List Row) : List Row :=
  trans.filter fun r => !round4Zero (groupNet trans (match_key r))

/-- Sort by the `Match_Key` column (src/proofapp.py line 146). -/
def sortByMatchKey (l : List Row) : List Row :=
  l.insertionSort fun a b => strLe (match_key a) (match_key b) = true

instance : IsTotal Row fun a b => strLe (match_key a) (match_key b) = true :=
  ⟨fun x y => IsTotal.total (r := fun a b : String => strLe a b = true)
    (match_key x) (match_key y)⟩

instance : IsTrans Row fun a b => strLe (match_key a) (match_key b) = true :=
  ⟨fun _ _ _ hab hbc =>
    IsTrans.trans (r := fun a b : String => strLe a b = true) _ _ _ hab hbc⟩

/-- Transaction body with the `fillna(0)` writes applied, the rows the
grouper works on. -/
def transactionsOf (rows : List Row) : List Row :=
  (segment rows).body.map fillRow

/-- The reconciliation pipeline on the raw row sequence (src/proofapp.py
lines 99-146): segment, fill, group, partition, reattach the balance rows
around the unmatched rows and sort the matched rows by key.  Returns
(unmatched output table, matched output table). -/
def reconcileRows (rows : List Row) : List Row × List Row :=
  let s := segment rows
  let trans := s.body.map fillRow
  (s.ob ++ df_unmatched trans ++ s.cb, sortByMatchKey (df_matched trans))

/-- Required columns of the uploaded statement (src/proofapp.py line 94). -/
def required_cols : List String :=
  ["Date", "Reference", "Description", "Value", "Deposit", "Withdrawal", "Balance"]

/-- An uploaded statement: its column names and its parsed rows. -/
structure Table where
  cols : List String
  rows : List Row

/-- Whole-pipeline entry point (src/proofapp.py lines 94-146): when some
required column is absent the program stops with the column-mismatch error,
whose message names the full `required_cols` list; otherwise it returns the
two output tables. -/
def reconcile (t : Table) : Except (List String) (List Row × List Row) :=
  if required_cols.all (fun c => t.cols.contains c) then
    Except.ok (reconcileRows t.rows)
  else
    Except.error required_cols

/-- Spec-side restatement of the text-key rule, written from the spec's
words for comparison against `extract_text_key`: uppercase, extract the
`[A-Z0-9]` tokens, discard stopwords and tokens of length at most 2, treat
the survivors as a set (each distinct token once), sort that set
lexicographically, and concatenate the first three. -/
def spec_text_key (description : Option String) : String :=
  match description with
  | none => ""
  | some s =>
    let toks := (alnumRuns (s.data.map Char.toUpper)).map String.mk
    let kept := toks.filter fun w => !(stopwords.contains w) && 2 < w.length
    String.join ((kept.toFinset.sort fun a b => strLe a b = true).take 3)

/-- Run-of-8-digits test: position `i` of `l` starts at least 8 consecutive
decimal digits (the places where the regex `\d{8,}` can match). -/
def hasRun8At (l : List Char) (i : ℕ) : Bool :=
  decide (8 ≤ (l.drop i).length) && ((l.drop i).take 8).all isDigitChar

/-- The `fillna(0)` write on the `Deposit` column alone (src/proofapp.py
line 110). -/
def fillDeposit (r : Row) : Row :=
  { r with deposit := some (r.deposit.getD 0) }

/-- The `fillna(0)` write on the `Withdrawal` column alone (src/proofapp.py
line 111). -/
def fillWithdrawal (r : Row) : Row :=
  { r with withdrawal := some (r.withdrawal.getD 0) }

/-- Mutable store of DataFrames, used to model the pandas copy/assignment
discipline of the pipeline: each cell is one DataFrame's rows, and a
DataFrame variable is an index into the store. -/
structure Heap where
  cells : List (List Row)

/-- Dereference a DataFrame variable. -/
def Heap.read (h : Heap) (ref : ℕ) : List Row :=
  (h.cells[ref]?).getD []

/-- Overwrite the DataFrame a variable points to (a pandas in-place column
assignment). -/
def Heap.write (h : Heap) (ref : ℕ) (d : List Row) : Heap :=
  ⟨h.cells.set ref d⟩

/-- Allocate a fresh DataFrame (`.copy()` / a filter result), returning the
new store and the fresh reference. -/
def Heap.alloc (h : Heap) (d : List Row) : Heap × ℕ :=
  (⟨h.cells ++ [d]⟩, h.cells.length)

/-- The reconciliation pipeline of src/proofapp.py lines 99-146 with the
pandas storage discipline made explicit: the uploaded DataFrame lives at
`dfRef`; the segmenter's `.copy()` calls allocate `df_transactions`,
`df_ob` and `df_cb` (lines 102/105-106); the two `fillna(0)` column
assignments write in place to the `df_transactions` cell (lines 110-111;
the derived key columns, dropped again at lines 145-146, are recomputed on
the fly instead of stored); lines 119-120 allocate the matched and
unmatched filter copies; lines 145-146 assemble the two output tables.
Returns the final store and the two output tables. -/
def runReconcileHeap (h0 : Heap) (dfRef : ℕ) : Heap × (List Row × List Row) :=
  let df := h0.read dfRef
  let s := segment df
  let p1 := h0.alloc s.body
  let p2 := p1.1.alloc s.ob
  let p3 := p2.1.alloc s.cb
  let h4 := p3.1.write p1.2 ((p3.1.read p1.2).map fillDeposit)
  let h5 := h4.write p1.2 ((h4.read p1.2).map fillWithdrawal)
  let trans := h5.read p1.2
  let p4 := h5.alloc (df_matched trans)
  let p5 := p4.1.alloc (df_unmatched trans)
  let outU := p5.1.read p2.2 ++ p5.1.read p5.2 ++ p5.1.read p3.2
  let outM := sortByMatchKey (p5.1.read p4.2)
  (p5.1, (outU, outM))

/-- Sample rows used by the witness theorems: an opening balance row, ... -/
def rowOpen : Row :=
  { date := "01", reference := "B1", description := some "Opening balance",
    value := 0, deposit := none, withdrawal := none, balance := 5000 }

/-- Sample transaction: a deposit tagged with an 8-digit reference. -/
def rowDep : Row :=
  { date := "02", reference := "T1", description := some "REVERSAL 99999999",
    value := 500, deposit := some 500, withdrawal := none, balance := 0 }

/-- Sample transaction: the offsetting withdrawal with the same 8-digit
reference. -/
def rowWd : Row :=
  { date := "03", reference := "T2", description := some "REVERSAL 99999999",
    value := 500, deposit := none, withdrawal := some 500, balance := 0 }

/-- Sample transaction: a lone consulting fee with no numeric key. -/
def rowFee : Row :=
  { date := "04", reference := "T3", description := some "Consulting Fee",
    value := 1000, deposit := some 1000, withdrawal := none, balance := 0 }

/-- Sample transaction with neither numeric nor text key. -/
def rowBare : Row :=
  { date := "05", reference := "T4", description := none,
    value := 0, deposit := none, withdrawal := some (25/2), balance := 0 }

/-- Sample closing balance row. -/
def rowClose : Row :=
  { date := "06", reference := "B2", description := some "Closing balance",
    value := 0, deposit := none, withdrawal := none, balance := 5500 }

/-- Sample statement exercising every branch of the pipeline. -/
def demoRows : List Row :=
  [rowOpen, rowDep, rowWd, rowFee, rowBare, rowClose]

/-- Sample table whose columns are complete. -/
def demoTable : Table :=
  ⟨required_cols, demoRows⟩

/-- Sample table whose columns lack `Balance` only. -/
def tableNoBalance : Table :=
  ⟨["Date", "Reference", "Description", "Value", "Deposit", "Withdrawal"],
   demoRows⟩

/-- C1: for every transaction row the match key follows the three-branch
rule: a present numeric key is returned verbatim, else a non-empty text key
yields `text_key ++ "_" ++ abs(net_value)` rounded to 2 decimal places,
else `"NO_KEY_VALUE_" ++ net_value` (signed) rounded to 2 decimal
places. -/
theorem C1_match_key_three_branches (r : Row) :
    (∀ k, extract_numeric_key r.description = some k → match_key r = k) ∧
    (extract_numeric_key r.description = none →
      extract_text_key r.description ≠ "" →
      match_key r =
        extract_text_key r.description ++ "_" ++ pyRound2Str |net_value r|) ∧
    (extract_numeric_key r.description = none →
      extract_text_key r.description = "" →
      match_key r = "NO_KEY_VALUE_" ++ pyRound2Str (net_value r)) := by
  refine ⟨?_, ?_, ?_⟩
  · intro k hk
    simp [match_key, extract_match_key, hk]
  · intro hnum htext
    simp [match_key, extract_match_key, hnum, htext]
  · intro hnum htext
    simp [match_key, extract_match_key, hnum, htext]

/-- Witness for C1: the text-key branch at the concrete consulting-fee
row. -/
theorem C1_match_key_three_branches_witness :
    match_key rowFee =
      extract_text_key rowFee.description ++ "_" ++ pyRound2Str |net_value rowFee| :=
  (C1_match_key_three_branches rowFee).2.1 (by decide) (by decide)

/-- C6 counterexample: on a table missing only `Balance`, the error names
the full required column list, not exactly the missing column. -/
theorem C6_missing_column_counterexample :
    reconcile tableNoBalance = Except.error required_cols ∧
    required_cols ≠ ["Balance"] :=
  ⟨rfl, by decide⟩

/-- C6 amended: a table missing a required column fails before any row
processing with the column-mismatch error naming the full required set
(which contains every missing column, `Balance` in particular); no output
tables are produced. -/
theorem C6_missing_column_error (t : Table)
    (h : ∃ c ∈ required_cols, c ∉ t.cols) :
    reconcile t = Except.error required_cols ∧ "Balance" ∈ required_cols := by
  refine ⟨?_, by decide⟩
  rw [reconcile, if_neg]
  intro hall
  rw [List.all_eq_true] at hall
  obtain ⟨c, hc, hnc⟩ := h
  exact hnc (by simpa using hall c hc)

/-- Witness for C6 amended: the concrete table lacking `Balance`. -/
theorem C6_missing_column_error_witness :
    reconcile tableNoBalance = Except.error required_cols ∧
    "Balance" ∈ required_cols :=
  C6_missing_column_error tableNoBalance (by decide)

/-- C7: every transaction row of the (filled) body lands in exactly one of
the matched and unmatched partitions, and the two sizes add up to the body
size. -/
theorem C7_partition (rows : List Row) :
    (∀ r ∈ transactionsOf rows,
      (r ∈ (reconcileRows rows).2 ∧ r ∉ df_unmatched (transactionsOf rows)) ∨
      (r ∉ (reconcileRows rows).2 ∧ r ∈ df_unmatched (transactionsOf rows))) ∧
    (reconcileRows rows).2.length + (df_unmatched (transactionsOf rows)).length
      = (transactionsOf rows).length := by
  have hperm : ((reconcileRows rows).2).Perm (df_matched (transactionsOf rows)) :=
    List.perm_insertionSort _ _
  constructor
  · intro r hr
    by_cases hp : round4Zero (groupNet (transactionsOf rows) (match_key r)) = true
    · left
      refine ⟨hperm.mem_iff.mpr (List.mem_filter.mpr ⟨hr, hp⟩), ?_⟩
      intro hmem
      have hcontra := (List.mem_filter.mp hmem).2
      simp [hp] at hcontra
    · right
      refine ⟨?_, List.mem_filter.mpr ⟨hr, by simp [hp]⟩⟩
      intro hmem
      exact hp (List.mem_filter.mp (hperm.mem_iff.mp hmem)).2
  · rw [hperm.length_eq]
    have key : ∀ (p : Row → Bool) (l : List Row),
        (l.filter p).length + (l.filter fun r => !p r).length = l.length := by
      intro p l
      induction l with
      | nil => rfl
      | cons a l ih =>
        by_cases hp : p a = true
        · simp only [List.filter_cons, hp, if_pos, Bool.not_true, if_neg,
            Bool.false_eq_true, not_false_iff, List.length_cons]
          omega
        · simp only [List.filter_cons, hp, Bool.not_eq_true] at *
          simp only [List.filter_cons, hp, Bool.not_false, if_pos,
            Bool.false_eq_true, if_neg, not_false_iff, List.length_cons]
          omega
    exact key _ _

/-- Witness for C7: the reversal deposit row of the demo statement is in
the matched output and not in the unmatched partition. -/
theorem C7_partition_witness :
    (fillRow rowDep ∈ (reconcileRows demoRows).2 ∧
      fillRow rowDep ∉ df_unmatched (transactionsOf demoRows)) ∨
    (fillRow rowDep ∉ (reconcileRows demoRows).2 ∧
      fillRow rowDep ∈ df_unmatched (transactionsOf demoRows)) :=
  (C7_partition demoRows).1 (fillRow rowDep) (by with_unfolding_all decide)

/-- C8: the unmatched output is the opening balance row, then the unmatched
transaction rows in statement order (a sublist of the body), then the
closing balance row; the matched output is a permutation of the matched
rows whose key sequence is sorted (so equal keys are adjacent). -/
theorem C8_output_order (rows : List Row) :
    (reconcileRows rows).1 =
      (segment rows).ob ++ df_unmatched (transactionsOf rows) ++ (segment rows).cb ∧
    (df_unmatched (transactionsOf rows)).Sublist (transactionsOf rows) ∧
    ((reconcileRows rows).2).Perm (df_matched (transactionsOf rows)) ∧
    ((reconcileRows rows).2.map match_key).Sorted fun a b => strLe a b = true := by
  refine ⟨rfl, List.filter_sublist _, List.perm_insertionSort _ _, ?_⟩
  have hs : ((reconcileRows rows).2).Sorted
      fun a b => strLe (match_key a) (match_key b) = true :=
    List.sorted_insertionSort _ _
  exact List.Pairwise.map _ (fun a b h => h) hs

theorem filter_key_filter (p : Row → Bool) (k : String) (trans : List Row)
    (hall : ∀ r ∈ trans, match_key r = k → p r = true) :
    (trans.filter p).filter (fun r => match_key r == k)
      = trans.filter fun r => match_key r == k := by
  induction trans with
  | nil => rfl
  | cons a l ih =>
    have ih' := ih fun r hr => hall r (List.mem_cons_of_mem a hr)
    by_cases hak : match_key a = k
    · have hpa : p a = true := hall a (List.mem_cons_self a l) hak
      simp [List.filter_cons, hpa, hak, ih']
    · by_cases hpa : p a = true
      · simp [List.filter_cons, hpa, hak, ih']
      · simp only [Bool.not_eq_true] at hpa
        simp [List.filter_cons, hpa, hak, ih']

theorem groupNet_filter (p : Row → Bool) (k : String) (trans : List Row)
    (hall : ∀ r ∈ trans, match_key r = k → p r = true) :
    groupNet (trans.filter p) k = groupNet trans k := by
  unfold groupNet
  rw [filter_key_filter p k trans hall]

theorem groupNet_perm {l l' : List Row} (hp : l.Perm l') (k : String) :
    groupNet l k = groupNet l' k := by
  unfold groupNet
  exact List.Perm.sum_eq (List.Perm.map _ (List.Perm.filter _ hp))

/-- C2: a transaction row lands in the matched partition exactly when its
group's net sum rounds to zero at 4 decimal places; every key occurring in
the matched output has a zero-rounding net sum over the output rows sharing
it, and no key occurring in the unmatched rows does. -/
theorem C2_matched_iff_zero_sum (rows : List Row) :
    (∀ r ∈ transactionsOf rows,
      (r ∈ df_matched (transactionsOf rows) ↔
        round4Zero (groupNet (transactionsOf rows) (match_key r)) = true)) ∧
    (∀ k, k ∈ ((reconcileRows rows).2).map match_key →
      round4Zero (groupNet ((reconcileRows rows).2) k) = true) ∧
    (∀ k, k ∈ (df_unmatched (transactionsOf rows)).map match_key →
      round4Zero (groupNet (df_unmatched (transactionsOf rows)) k) = false) := by
  refine ⟨?_, ?_, ?_⟩
  · intro r hr
    exact ⟨fun hm => (List.mem_filter.mp hm).2, fun hz => List.mem_filter.mpr ⟨hr, hz⟩⟩
  · intro k hk
    obtain ⟨r0, hr0, hkey⟩ := List.mem_map.mp hk
    have hperm : ((reconcileRows rows).2).Perm (df_matched (transactionsOf rows)) :=
      List.perm_insertionSort _ _
    have hr0' := hperm.mem_iff.mp hr0
    have hz : round4Zero (groupNet (transactionsOf rows) k) = true := by
      have h2 := (List.mem_filter.mp hr0').2
      rwa [hkey] at h2
    rw [groupNet_perm hperm k]
    rw [show df_matched (transactionsOf rows)
        = (transactionsOf rows).filter
            (fun r => round4Zero (groupNet (transactionsOf rows) (match_key r))) from rfl]
    rw [groupNet_filter _ k _ ?_]
    · exact hz
    · intro r _ hkr
      rw [hkr]
      exact hz
  · intro k hk
    obtain ⟨r0, hr0, hkey⟩ := List.mem_map.mp hk
    have hz : round4Zero (groupNet (transactionsOf rows) k) = false := by
      have h2 := (List.mem_filter.mp hr0).2
      rw [Bool.not_eq_true'] at h2
      rwa [hkey] at h2
    rw [show df_unmatched (transactionsOf rows)
        = (transactionsOf rows).filter
            (fun r => !round4Zero (groupNet (transactionsOf rows) (match_key r))) from rfl]
    rw [groupNet_filter _ k _ ?_]
    · exact hz
    · intro r _ hkr
      rw [hkr, hz]
      rfl

/-- Witness for C2: the reversal key of the demo statement occurs in the
matched output and its output-group net sum rounds to zero. -/
theorem C2_matched_iff_zero_sum_witness :
    round4Zero (groupNet ((reconcileRows demoRows).2) "99999999") = true :=
  (C2_matched_iff_zero_sum demoRows).2.1 "99999999" (by with_unfolding_all decide)

/-- C4: the embedded text-key computation agrees with the spec-side
formulation (tokens as a set, sorted lexicographically, first three
joined), and the worked example of the spec holds. -/
theorem C4_text_key (d : Option String) :
    extract_text_key d = spec_text_key d ∧
    extract_text_key (some "Office Rent Payment For March") = "MARCHOFFICERENT" := by
  refine ⟨?_, by decide⟩
  cases d with
  | none => rfl
  | some s =>
    simp only [extract_text_key, spec_text_key]
    congr 2
    apply List.eq_of_perm_of_sorted ?_ (List.sorted_insertionSort _ _)
      (Finset.sort_sorted _ _)
    apply List.perm_of_nodup_nodup_toFinset_eq
    · exact ((List.perm_insertionSort _ _).nodup_iff).mpr (List.nodup_dedup _)
    · exact Finset.sort_nodup _ _
    · rw [Finset.sort_toFinset]
      apply Finset.ext
      intro a
      simp [List.mem_toFinset, List.mem_insertionSort, List.mem_dedup]

theorem findIdx?_first {α : Type} (p : α → Bool) :
    ∀ (l : List α) (i : ℕ) (x : α) (s : ℕ), l[i]? = some x → p x = true →
      (∀ q, q < i → ∀ y, l[q]? = some y → p y = false) →
      l.findIdx? p s = some (s + i) := by
  intro l
  induction l with
  | nil => intro i x s h _ _; simp at h
  | cons a t ih =>
    intro i x s h hpx hmin
    cases i with
    | zero =>
      have hax : a = x := by simpa using h
      have hpa : p a = true := by rw [hax]; exact hpx
      rw [List.findIdx?_cons, if_pos hpa, Nat.add_zero]
    | succ j =>
      have hpa : p a = false := hmin 0 (Nat.succ_pos j) a (by simp)
      rw [List.findIdx?_cons, if_neg (by simp [hpa])]
      have hmin' : ∀ q, q < j → ∀ y, t[q]? = some y → p y = false := by
        intro q hq y hy
        exact hmin (q + 1) (Nat.succ_lt_succ hq) y (by rwa [List.getElem?_cons_succ])
      have := ih j x (s + 1) (by rwa [List.getElem?_cons_succ] at h) hpx hmin'
      rw [this]
      congr 1
      omega

theorem findIdx_first {α : Type} (p : α → Bool) :
    ∀ (l : List α) (i : ℕ) (x : α), l[i]? = some x → p x = true →
      (∀ q, q < i → ∀ y, l[q]? = some y → p y = false) →
      l.findIdx p = i := by
  intro l
  induction l with
  | nil => intro i x h _ _; simp at h
  | cons a t ih =>
    intro i x h hpx hmin
    cases i with
    | zero =>
      have hax : a = x := by simpa using h
      have hpa : p a = true := by rw [hax]; exact hpx
      simp [List.findIdx_cons, hpa]
    | succ j =>
      have hpa : p a = false := hmin 0 (Nat.succ_pos j) a (by simp)
      rw [List.findIdx_cons, hpa]
      have hmin' : ∀ q, q < j → ∀ y, t[q]? = some y → p y = false := by
        intro q hq y hy
        exact hmin (q + 1) (Nat.succ_lt_succ hq) y (by rwa [List.getElem?_cons_succ])
      have := ih j x (by rwa [List.getElem?_cons_succ] at h) hpx hmin'
      simp [this]

/-- C5: if the statement has no balance rows the whole input is the body
with empty boundaries; otherwise, for the first balance position `i` and
the last balance position `j`, the opening is the row at `i`, the closing
the row at `j`, and the body is the contiguous slice strictly between
them. -/
theorem C5_segmenter (rows : List Row) :
    ((∀ r ∈ rows, isBalanceRow r = false) → segment rows = ⟨[], rows, []⟩) ∧
    (∀ i j ri rj, rows[i]? = some ri → rows[j]? = some rj →
      isBalanceRow ri = true → isBalanceRow rj = true →
      (∀ p, p < i → ∀ rp, rows[p]? = some rp → isBalanceRow rp = false) →
      (∀ q, j < q → ∀ rq, rows[q]? = some rq → isBalanceRow rq = false) →
      segment rows = ⟨[ri], (rows.take j).drop (i + 1), [rj]⟩) := by
  constructor
  · intro hall
    unfold segment
    rw [List.findIdx?_eq_none_iff.mpr hall]
  · intro i j ri rj hi hj hbi hbj hmin hmax
    have hilen : i < rows.length := (List.getElem?_eq_some.mp hi).1
    have hjlen : j < rows.length := (List.getElem?_eq_some.mp hj).1
    have hfind : rows.findIdx? isBalanceRow = some i := by
      simpa using findIdx?_first isBalanceRow rows i ri 0 hi hbi hmin
    have hrev : rows.reverse.findIdx isBalanceRow = rows.length - 1 - j := by
      apply findIdx_first isBalanceRow rows.reverse (rows.length - 1 - j) rj
      · rw [List.getElem?_reverse (by omega)]
        have harith : rows.length - 1 - (rows.length - 1 - j) = j := by omega
        rw [harith]
        exact hj
      · exact hbj
      · intro q hq y hy
        have hqlen : q < rows.length := by
          have hq1 := (List.getElem?_eq_some.mp hy).1
          simpa using hq1
        rw [List.getElem?_reverse hqlen] at hy
        exact hmax (rows.length - 1 - q) (by omega) y hy
    have harith2 : rows.length - 1 - (rows.length - 1 - j) = j := by omega
    unfold segment
    rw [hfind]
    simp only [hrev, harith2, Segmented.mk.injEq]
    refine ⟨?_, trivial, ?_⟩
    · rw [List.drop_eq_getElem_cons hilen, List.take_succ_cons, List.take_zero]
      rw [(List.getElem?_eq_some.mp hi).2]
    · rw [List.drop_eq_getElem_cons hjlen, List.take_succ_cons, List.take_zero]
      rw [(List.getElem?_eq_some.mp hj).2]

/-- Witness for C5: the demo statement splits at its first and last
balance rows. -/
theorem C5_segmenter_witness :
    segment demoRows = ⟨[rowOpen], (demoRows.take 5).drop (0 + 1), [rowClose]⟩ :=
  (C5_segmenter demoRows).2 0 5 rowOpen rowClose rfl rfl rfl rfl
    (fun p hp => absurd hp (Nat.not_lt_zero p))
    (fun q hq rq hrq => by
      rw [List.getElem?_eq_none (by simpa [demoRows] using hq)] at hrq
      cases hrq)

/-- C10: a statement with exactly one balance row uses that row as both
opening and closing balance, has an empty transaction body, and emits the
row twice in the unmatched output (first and last position) with an empty
matched output. -/
theorem C10_single_balance_row (pre post : List Row) (r : Row)
    (hpre : ∀ x ∈ pre, isBalanceRow x = false)
    (hpost : ∀ x ∈ post, isBalanceRow x = false)
    (hr : isBalanceRow r = true) :
    segment (pre ++ r :: post) = ⟨[r], [], [r]⟩ ∧
    reconcileRows (pre ++ r :: post) = ([r, r], []) := by
  have hlen : (pre ++ r :: post).length = pre.length + 1 + post.length := by
    simp
    omega
  have hgetr : (pre ++ r :: post)[pre.length]? = some r := by
    rw [List.getElem?_append_right (Nat.le_refl _)]
    simp
  have hmin : ∀ q, q < pre.length → ∀ y, (pre ++ r :: post)[q]? = some y →
      isBalanceRow y = false := by
    intro q hq y hy
    rw [List.getElem?_append_left hq] at hy
    exact hpre y (List.getElem?_mem hy)
  have hmax : ∀ q, pre.length < q → ∀ y, (pre ++ r :: post)[q]? = some y →
      isBalanceRow y = false := by
    intro q hq y hy
    rw [List.getElem?_append_right (Nat.le_of_lt hq)] at hy
    have hq1 : q - pre.length = (q - pre.length - 1) + 1 := by omega
    rw [hq1, List.getElem?_cons_succ] at hy
    exact hpost y (List.getElem?_mem hy)
  have hseg : segment (pre ++ r :: post) = ⟨[r], [], [r]⟩ := by
    have hfind : (pre ++ r :: post).findIdx? isBalanceRow = some pre.length := by
      simpa using findIdx?_first isBalanceRow (pre ++ r :: post) pre.length r 0
        hgetr hr hmin
    have hrev : (pre ++ r :: post).reverse.findIdx isBalanceRow
        = (pre ++ r :: post).length - 1 - pre.length := by
      apply findIdx_first isBalanceRow _ _ r
      · rw [List.getElem?_reverse (by omega)]
        have harith : (pre ++ r :: post).length - 1
            - ((pre ++ r :: post).length - 1 - pre.length) = pre.length := by omega
        rw [harith]
        exact hgetr
      · exact hr
      · intro q hq y hy
        have hqlen : q < (pre ++ r :: post).length := by
          have hq1 := (List.getElem?_eq_some.mp hy).1
          simp only [List.length_reverse] at hq1
          exact hq1
        rw [List.getElem?_reverse hqlen] at hy
        exact hmax ((pre ++ r :: post).length - 1 - q) (by omega) y hy
    unfold segment
    rw [hfind]
    have harith2 : (pre ++ r :: post).length - 1
        - ((pre ++ r :: post).length - 1 - pre.length) = pre.length := by omega
    simp only [hrev, harith2, Segmented.mk.injEq]
    refine ⟨?_, ?_, ?_⟩
    · rw [List.drop_append_eq_append_drop]
      simp
    · rw [List.take_append_eq_append_take]
      simp
    · rw [List.drop_append_eq_append_drop]
      simp
  refine ⟨hseg, ?_⟩
  unfold reconcileRows
  rw [hseg]
  rfl

/-- Witness for C10: a one-row statement holding only a balance row. -/
theorem C10_single_balance_row_witness :
    segment [rowOpen] = ⟨[rowOpen], [], [rowOpen]⟩ ∧
    reconcileRows [rowOpen] = ([rowOpen, rowOpen], []) :=
  C10_single_balance_row [] [] rowOpen
    (fun x hx => absurd hx (List.not_mem_nil x))
    (fun x hx => absurd hx (List.not_mem_nil x)) rfl

theorem set_append_len {α : Type} (l : List α) (x : α) (rest : List α) (v : α) :
    (l ++ x :: rest).set l.length v = l ++ v :: rest := by
  rw [List.set_append, if_neg (by omega)]
  simp

theorem getElem?_append_self_add {α : Type} (l rest : List α) (k : ℕ) :
    (l ++ rest)[l.length + k]? = rest[k]? := by
  rw [List.getElem?_append_right (by omega)]
  congr 1
  omega

theorem getElem?_append_self {α : Type} (l rest : List α) :
    (l ++ rest)[l.length]? = rest[0]? := by
  rw [List.getElem?_append_right (Nat.le_refl _)]
  congr 1
  omega

theorem fill_comp : fillWithdrawal ∘ fillDeposit = fillRow := rfl

/-- Normal form of one heap run: five fresh cells are appended (the final
transactions table, the two balance copies and the two partition copies),
the caller's cells are untouched, and the returned pair of output tables is
exactly the pure pipeline applied to the input cell. -/
theorem runReconcileHeap_run (h0 : Heap) (dfRef : ℕ) :
    runReconcileHeap h0 dfRef =
      (⟨h0.cells ++
          [(segment (h0.read dfRef)).body.map fillRow,
           (segment (h0.read dfRef)).ob,
           (segment (h0.read dfRef)).cb,
           df_matched ((segment (h0.read dfRef)).body.map fillRow),
           df_unmatched ((segment (h0.read dfRef)).body.map fillRow)]⟩,
       reconcileRows (h0.read dfRef)) := by
  simp only [runReconcileHeap, reconcileRows, Heap.alloc, Heap.write, Heap.read,
    List.append_assoc, List.singleton_append, List.cons_append, List.nil_append,
    List.length_append, List.length_cons, List.length_nil, List.length_set,
    set_append_len, getElem?_append_self, getElem?_append_self_add,
    List.getElem?_cons_zero, List.getElem?_cons_succ, Option.getD_some]
  rw [List.map_map, fill_comp]

/-- C9: running the pipeline leaves the caller's input DataFrame cell
unchanged, its outputs are a pure function of that input cell, and running
it a second time on the resulting store returns identical output tables. -/
theorem C9_idempotent_no_mutation (h : Heap) (dfRef : ℕ)
    (hlt : dfRef < h.cells.length) :
    (runReconcileHeap h dfRef).1.read dfRef = h.read dfRef ∧
    (runReconcileHeap h dfRef).2 = reconcileRows (h.read dfRef) ∧
    (runReconcileHeap ((runReconcileHeap h dfRef).1) dfRef).2
      = (runReconcileHeap h dfRef).2 := by
  have hpres : (runReconcileHeap h dfRef).1.read dfRef = h.read dfRef := by
    rw [runReconcileHeap_run]
    simp only [Heap.read, List.getElem?_append_left hlt]
  refine ⟨hpres, ?_, ?_⟩
  · rw [runReconcileHeap_run]
  · rw [runReconcileHeap_run ((runReconcileHeap h dfRef).1) dfRef, hpres,
      runReconcileHeap_run h dfRef]

/-- Witness for C9: a store holding just the demo statement. -/
theorem C9_idempotent_no_mutation_witness :
    (runReconcileHeap ⟨[demoRows]⟩ 0).1.read 0 = Heap.read ⟨[demoRows]⟩ 0 ∧
    (runReconcileHeap ⟨[demoRows]⟩ 0).2 = reconcileRows (Heap.read ⟨[demoRows]⟩ 0) ∧
    (runReconcileHeap ((runReconcileHeap ⟨[demoRows]⟩ 0).1) 0).2
      = (runReconcileHeap ⟨[demoRows]⟩ 0).2 :=
  C9_idempotent_no_mutation ⟨[demoRows]⟩ 0 (by decide)

theorem le_takeWhile_iff (p : Char → Bool) :
    ∀ (m : List Char) (n : ℕ),
      n ≤ (m.takeWhile p).length ↔ n ≤ m.length ∧ (m.take n).all p = true := by
  intro m
  induction m with
  | nil => intro n; simp
  | cons c cs ih =>
    intro n
    cases n with
    | zero => simp
    | succ k =>
      by_cases hc : p c = true
      · rw [List.takeWhile_cons, if_pos hc]
        simp only [List.length_cons, Nat.succ_le_succ_iff, List.take_succ_cons,
          List.all_cons, hc, Bool.true_and]
        exact ih k
      · rw [List.takeWhile_cons, if_neg hc]
        simp only [List.length_nil, Nat.le_zero]
        constructor
        · intro h; omega
        · rintro ⟨h1, h2⟩
          rw [List.take_succ_cons, List.all_cons] at h2
          rw [Bool.and_eq_true] at h2
          exact absurd h2.1 hc

theorem hasRun8At_true_iff (l : List Char) (i : ℕ) :
    hasRun8At l i = true ↔ 8 ≤ ((l.drop i).takeWhile isDigitChar).length := by
  unfold hasRun8At
  rw [Bool.and_eq_true, decide_eq_true_eq, ← le_takeWhile_iff]

theorem hasRun8At_false_iff (l : List Char) (i : ℕ) :
    hasRun8At l i = false ↔ ((l.drop i).takeWhile isDigitChar).length < 8 := by
  constructor
  · intro h
    by_contra hge
    rw [not_lt] at hge
    rw [(hasRun8At_true_iff l i).mpr hge] at h
    cases h
  · intro h
    cases hb : hasRun8At l i with
    | false => rfl
    | true =>
      have h8 := (hasRun8At_true_iff l i).mp hb
      omega

theorem hasRun8At_nil (i : ℕ) : hasRun8At ([] : List Char) i = false := by
  apply (hasRun8At_false_iff _ _).mpr
  simp

theorem takeWhile_append_all (p : Char → Bool) (l₁ l₂ : List Char)
    (h : ∀ x ∈ l₁, p x = true) :
    (l₁ ++ l₂).takeWhile p = l₁ ++ l₂.takeWhile p := by
  induction l₁ with
  | nil => simp
  | cons a t ih =>
    rw [List.cons_append, List.takeWhile_cons, if_pos (h a (List.mem_cons_self a t)),
      ih fun x hx => h x (List.mem_cons_of_mem a hx), List.cons_append]

theorem takeWhile_dropWhile_nil (p : Char → Bool) (l : List Char) :
    (l.dropWhile p).takeWhile p = [] := by
  induction l with
  | nil => rfl
  | cons a t ih =>
    rw [List.dropWhile_cons]
    by_cases h : p a = true
    · rw [if_pos h]; exact ih
    · rw [if_neg h, List.takeWhile_cons, if_neg h]

theorem drop_append_len_add {α : Type} (t d : List α) (q : ℕ) :
    (t ++ d).drop (t.length + q) = d.drop q := by
  rw [List.drop_append_eq_append_drop, List.drop_eq_nil_of_le (by omega),
    List.nil_append]
  congr 1
  omega

theorem hasRun8At_shift (t d : List Char) (q : ℕ) :
    hasRun8At (t ++ d) (t.length + q) = hasRun8At d q := by
  unfold hasRun8At
  rw [drop_append_len_add]

theorem hasRun8At_short (t d : List Char)
    (ht : ∀ x ∈ t, isDigitChar x = true)
    (hd : d.takeWhile isDigitChar = [])
    (hlt : t.length < 8) :
    ∀ q, q < t.length → hasRun8At (t ++ d) q = false := by
  intro q hq
  apply (hasRun8At_false_iff _ _).mpr
  have hdrop : (t ++ d).drop q = t.drop q ++ d := by
    rw [List.drop_append_eq_append_drop, Nat.sub_eq_zero_of_le (le_of_lt hq),
      List.drop_zero]
  rw [hdrop, takeWhile_append_all _ _ _ fun x hx => ht x (List.mem_of_mem_drop hx),
    hd, List.append_nil, List.length_drop]
  omega

theorem hasRun8At_cons_not (c : Char) (cs : List Char)
    (hc : isDigitChar c = false) : hasRun8At (c :: cs) 0 = false := by
  apply (hasRun8At_false_iff _ _).mpr
  rw [List.drop_zero, List.takeWhile_cons, if_neg (by simp [hc])]
  simp

theorem findRun8Go_spec (l : List Char) : ∀ cur : List Char,
    findRun8Go l cur =
      if 8 ≤ cur.length + (l.takeWhile isDigitChar).length
      then some (cur.reverse ++ l.takeWhile isDigitChar)
      else findRun8Go (l.dropWhile isDigitChar) [] := by
  induction l with
  | nil =>
    intro cur
    simp only [List.takeWhile_nil, List.dropWhile_nil, List.length_nil,
      Nat.add_zero, List.append_nil]
    show (if 8 ≤ cur.length then some cur.reverse else none) = _
    split
    · rfl
    · rfl
  | cons c cs ih =>
    intro cur
    by_cases hc : isDigitChar c = true
    · have hL : findRun8Go (c :: cs) cur = findRun8Go cs (c :: cur) := by
        simp [findRun8Go, hc]
      rw [hL, ih (c :: cur), List.takeWhile_cons, if_pos hc,
        List.dropWhile_cons, if_pos hc]
      apply if_congr
      · simp only [List.length_cons]
        omega
      · simp [List.reverse_cons, List.append_assoc]
      · rfl
    · have hL : findRun8Go (c :: cs) cur
          = if 8 ≤ cur.length then some cur.reverse else findRun8Go cs [] := by
        simp [findRun8Go, hc]
      rw [hL, List.takeWhile_cons, if_neg hc, List.dropWhile_cons, if_neg hc]
      have hgo : findRun8Go (c :: cs) [] = findRun8Go cs [] := by
        simp [findRun8Go, hc]
      rw [hgo]
      simp only [List.length_nil, Nat.add_zero, List.append_nil]


theorem findRun8_step (l : List Char) :
    findRun8 l =
      if 8 ≤ (l.takeWhile isDigitChar).length
      then some (l.takeWhile isDigitChar)
      else findRun8 (l.dropWhile isDigitChar) := by
  rw [findRun8, findRun8Go_spec]
  simp [findRun8]

theorem findRun8_char : ∀ (n : ℕ) (l : List Char), l.length ≤ n →
    ((findRun8 l = none ↔ ∀ i, hasRun8At l i = false) ∧
     (∀ r, findRun8 l = some r →
       ∃ i, hasRun8At l i = true ∧ (∀ p, p < i → hasRun8At l p = false) ∧
         r = (l.drop i).takeWhile isDigitChar)) := by
  intro n
  induction n with
  | zero =>
    intro l hl
    have hnil : l = [] := List.eq_nil_of_length_eq_zero (Nat.le_zero.mp hl)
    subst hnil
    constructor
    · simp [findRun8, findRun8Go, hasRun8At_nil]
    · intro r hr
      simp [findRun8, findRun8Go] at hr
  | succ n ih =>
    intro l hl
    by_cases h8 : 8 ≤ (l.takeWhile isDigitChar).length
    · have hL : findRun8 l = some (l.takeWhile isDigitChar) := by
        rw [findRun8_step, if_pos h8]
      have h0 : hasRun8At l 0 = true := by
        apply (hasRun8At_true_iff _ _).mpr
        rwa [List.drop_zero]
      constructor
      · constructor
        · intro hnone
          rw [hL] at hnone
          cases hnone
        · intro hall
          rw [hall 0] at h0
          cases h0
      · intro r hr
        rw [hL] at hr
        refine ⟨0, h0, fun p hp => absurd hp (Nat.not_lt_zero p), ?_⟩
        rw [List.drop_zero]
        injection hr with h
        exact h.symm
    · cases l with
      | nil =>
        constructor
        · simp [findRun8, findRun8Go, hasRun8At_nil]
        · intro r hr
          simp [findRun8, findRun8Go] at hr
      | cons c cs =>
        by_cases hc : isDigitChar c = true
        · have htd : (c :: cs).takeWhile isDigitChar ++ (c :: cs).dropWhile isDigitChar
              = c :: cs := List.takeWhile_append_dropWhile isDigitChar (c :: cs)
          have htlen : ((c :: cs).takeWhile isDigitChar).length < 8 := by omega
          have ht1 : 1 ≤ ((c :: cs).takeWhile isDigitChar).length := by
            rw [List.takeWhile_cons, if_pos hc]
            simp
          have hlen2 : ((c :: cs).takeWhile isDigitChar).length
              + ((c :: cs).dropWhile isDigitChar).length = cs.length + 1 := by
            have hlen1 := congrArg List.length htd
            simp only [List.length_append, List.length_cons] at hlen1
            omega
          have hdlen : ((c :: cs).dropWhile isDigitChar).length ≤ n := by
            simp only [List.length_cons] at hl
            omega
          have hstep : findRun8 (c :: cs)
              = findRun8 ((c :: cs).dropWhile isDigitChar) := by
            rw [findRun8_step, if_neg h8]
          obtain ⟨ihnone, ihsome⟩ := ih ((c :: cs).dropWhile isDigitChar) hdlen
          have hta : ∀ x ∈ (c :: cs).takeWhile isDigitChar, isDigitChar x = true :=
            fun x hx => List.mem_takeWhile_imp hx
          have hdt : ((c :: cs).dropWhile isDigitChar).takeWhile isDigitChar = [] :=
            takeWhile_dropWhile_nil _ _
          have hshort : ∀ q, q < ((c :: cs).takeWhile isDigitChar).length →
              hasRun8At (c :: cs) q = false := by
            intro q hq
            have h1 := hasRun8At_short _ _ hta hdt htlen q hq
            rwa [htd] at h1
          have hshift : ∀ q,
              hasRun8At (c :: cs) (((c :: cs).takeWhile isDigitChar).length + q)
                = hasRun8At ((c :: cs).dropWhile isDigitChar) q := by
            intro q
            have h1 := hasRun8At_shift ((c :: cs).takeWhile isDigitChar)
              ((c :: cs).dropWhile isDigitChar) q
            rwa [htd] at h1
          constructor
          · rw [hstep]
            constructor
            · intro hnone i
              by_cases hqi : i < ((c :: cs).takeWhile isDigitChar).length
              · exact hshort i hqi
              · have hieq : i = ((c :: cs).takeWhile isDigitChar).length
                    + (i - ((c :: cs).takeWhile isDigitChar).length) := by omega
                rw [hieq, hshift]
                exact ihnone.mp hnone _
            · intro hall
              apply ihnone.mpr
              intro i
              rw [← hshift i]
              exact hall _
          · intro r hr
            rw [hstep] at hr
            obtain ⟨i, hi, hmin, hrw⟩ := ihsome r hr
            refine ⟨((c :: cs).takeWhile isDigitChar).length + i, ?_, ?_, ?_⟩
            · rw [hshift]
              exact hi
            · intro p hp
              by_cases hpt : p < ((c :: cs).takeWhile isDigitChar).length
              · exact hshort p hpt
              · have hpeq : p = ((c :: cs).takeWhile isDigitChar).length
                    + (p - ((c :: cs).takeWhile isDigitChar).length) := by omega
                rw [hpeq, hshift]
                exact hmin _ (by omega)
            · have hdrop : (c :: cs).drop (((c :: cs).takeWhile isDigitChar).length + i)
                  = ((c :: cs).dropWhile isDigitChar).drop i := by
                have h1 := drop_append_len_add ((c :: cs).takeWhile isDigitChar)
                  ((c :: cs).dropWhile isDigitChar) i
                rwa [htd] at h1
              rw [hdrop]
              exact hrw
        · have hstep : findRun8 (c :: cs) = findRun8 cs := by
            simp [findRun8, findRun8Go, hc]
          have h0 : hasRun8At (c :: cs) 0 = false :=
            hasRun8At_cons_not c cs (by simpa using hc)
          have hshift : ∀ i, hasRun8At (c :: cs) (i + 1) = hasRun8At cs i := by
            intro i
            unfold hasRun8At
            rw [List.drop_succ_cons]
          obtain ⟨ihnone, ihsome⟩ := ih cs (by
            simp only [List.length_cons] at hl
            omega)
          constructor
          · rw [hstep]
            constructor
            · intro hnone i
              cases i with
              | zero => exact h0
              | succ j =>
                rw [hshift]
                exact ihnone.mp hnone j
            · intro hall
              apply ihnone.mpr
              intro i
              rw [← hshift i]
              exact hall _
          · intro r hr
            rw [hstep] at hr
            obtain ⟨i, hi, hmin, hrw⟩ := ihsome r hr
            refine ⟨i + 1, ?_, ?_, ?_⟩
            · rw [hshift]
              exact hi
            · intro p hp
              cases p with
              | zero => exact h0
              | succ q =>
                rw [hshift]
                exact hmin q (by omega)
            · rw [List.drop_succ_cons]
              exact hrw

/-- C3: the numeric key is absent exactly when no position of the
description starts 8 consecutive digits; when present it is the whole digit
run starting at the first such position, returned verbatim; and the two
worked examples of the spec hold. -/
theorem C3_numeric_key (s : String) :
    extract_numeric_key none = none ∧
    (extract_numeric_key (some s) = none ↔ ∀ i, hasRun8At s.data i = false) ∧
    (∀ k, extract_numeric_key (some s) = some k →
      ∃ i, hasRun8At s.data i = true ∧ (∀ p, p < i → hasRun8At s.data p = false) ∧
        k.data = (s.data.drop i).takeWhile isDigitChar) ∧
    extract_numeric_key (some "INV12345678 REVERSAL") = some "12345678" ∧
    extract_numeric_key (some "no digits here") = none := by
  obtain ⟨hnone, hsome⟩ := findRun8_char s.data.length s.data (Nat.le_refl _)
  refine ⟨rfl, ?_, ?_, by decide, by decide⟩
  · show (findRun8 s.data).map String.mk = none ↔ _
    rw [Option.map_eq_none']
    exact hnone
  · intro k hk
    have hk' : (findRun8 s.data).map String.mk = some k := hk
    rw [Option.map_eq_some'] at hk'
    obtain ⟨a, ha, hak⟩ := hk'
    obtain ⟨i, hi, hmin, hrw⟩ := hsome a ha
    refine ⟨i, hi, hmin, ?_⟩
    rw [← hak]
    exact hrw

/-- Witness for C3: the first worked example, evaluated through the
characterization. -/
theorem C3_numeric_key_witness :
    ∃ i, hasRun8At ("INV12345678 REVERSAL" : String).data i = true ∧
      (∀ p, p < i →
        hasRun8At ("INV12345678 REVERSAL" : String).data p = false) ∧
      ("12345678" : String).data
        = (("INV12345678 REVERSAL" : String).data.drop i).takeWhile isDigitChar :=
  (C3_numeric_key "INV12345678 REVERSAL").2.2.1 "12345678" (by decide)

end ProofApp
